import Mathlib

/-!
Verification of the direct DNS manager (`net/dns/direct.go`): a component
that rewrites `/etc/resolv.conf`, keeps a backup of a foreign configuration,
and restores it later.  The file system is modelled as a partial map from
absolute paths to file contents; the manager state additionally carries the
sticky `renameBroken` flag.  All functions below are shallow embeddings of
the corresponding Go functions.
-/

namespace DnsDirect

/-- Characters trimmed by Go's `strings.TrimSpace` on ASCII input
(the file format at hand is ASCII). -/
def isGoSpace (c : Char) : Bool :=
  c = ' ' || c = '\t' || c = '\n' || c = Char.ofNat 11 || c = Char.ofNat 12 || c = '\r'

/-- Model of `strings.TrimSpace` on the character list of a line. -/
def goTrim (l : List Char) : List Char :=
  ((l.dropWhile isGoSpace).reverse.dropWhile isGoSpace).reverse

/-- Model of `strings.HasPrefix` (second argument is the candidate front part). -/
def hasPrefixL : List Char → List Char → Bool
  | _, [] => true
  | [], _ :: _ => false
  | a :: as, b :: bs => a = b && hasPrefixL as bs

/-- Model of `bytes.Contains`/`strings.Contains`. -/
def containsSub : List Char → List Char → Bool
  | [], pat => hasPrefixL [] pat
  | a :: as, pat => hasPrefixL (a :: as) pat || containsSub as pat

/-- `strings.Contains` on whole strings. -/
def strContains (s pat : String) : Bool := containsSub s.toList pat.toList

/-- Splits a character list at every occurrence of `sep`; the separators are
dropped and the (possibly empty) chunks between them are kept, including the
trailing chunk after the last separator. -/
def splitCh (sep : Char) : List Char → List (List Char)
  | [] => [[]]
  | a :: as =>
    if a = sep then [] :: splitCh sep as
    else
      match splitCh sep as with
      | [] => [[a]]
      | t :: ts => (a :: t) :: ts

/-- The lines a `bufio.Scanner` yields on this input: chunks between
newlines, with no extra empty line when the input ends in a newline. -/
def goLines (l : List Char) : List (List Char) :=
  let parts := splitCh '\n' l
  if parts.getLast? = some [] then parts.dropLast else parts

/-- Joins a list of lines, terminating every line with a newline. -/
def joinNl : List (List Char) → List Char
  | [] => []
  | l :: ls => l ++ '\n' :: joinNl ls

/-! ## Errors -/

/-- File-system / parse errors.  `notExist` models errors for which Go's
`os.IsNotExist` is true; everything else is collapsed into `fault`. -/
inductive Err where
  | notExist
  | fault
deriving DecidableEq

/-! ## IP addresses

Modelled from the spec: a nameserver line's remainder "must parse as a valid
IP literal" (the IP type and its textual form live in the external `netaddr`
package, not in this repository).  We model IPv4 dotted-quad literals, with
`IP.render` the canonical form `netaddr.IP.String` produces and `parseIPChars`
the (leading-zero rejecting) parse. -/

def digitChar (n : Nat) : Char := Char.ofNat (48 + n)

def octetChars (n : Nat) : List Char :=
  if n < 10 then [digitChar n]
  else if n < 100 then [digitChar (n / 10), digitChar (n % 10)]
  else [digitChar (n / 100), digitChar (n / 10 % 10), digitChar (n % 10)]

def digitVal (c : Char) : Option Nat :=
  if 48 ≤ c.toNat && c.toNat ≤ 57 then some (c.toNat - 48) else none

def parseOctet : List Char → Option Nat
  | [a] => digitVal a
  | [a, b] =>
    if a = '0' then none
    else
      match digitVal a, digitVal b with
      | some x, some y => some (10 * x + y)
      | _, _ => none
  | [a, b, c] =>
    if a = '0' then none
    else
      match digitVal a, digitVal b, digitVal c with
      | some x, some y, some z =>
        if 100 * x + 10 * y + z ≤ 255 then some (100 * x + 10 * y + z) else none
      | _, _, _ => none
  | _ => none

structure IP where
  o1 : Fin 256
  o2 : Fin 256
  o3 : Fin 256
  o4 : Fin 256
deriving DecidableEq

def IP.renderChars (ip : IP) : List Char :=
  octetChars ip.o1.val ++ '.' ::
    (octetChars ip.o2.val ++ '.' :: (octetChars ip.o3.val ++ '.' :: octetChars ip.o4.val))

def IP.render (ip : IP) : String := String.mk ip.renderChars

def parseIPChars (l : List Char) : Option IP :=
  match splitCh '.' l with
  | [p1, p2, p3, p4] =>
    match parseOctet p1, parseOctet p2, parseOctet p3, parseOctet p4 with
    | some a, some b, some c, some d =>
      if h1 : a < 256 then
        if h2 : b < 256 then
          if h3 : c < 256 then
            if h4 : d < 256 then some ⟨⟨a, h1⟩, ⟨b, h2⟩, ⟨c, h3⟩, ⟨d, h4⟩⟩
            else none
          else none
        else none
      else none
    | _, _, _, _ => none
  | _ => none

/-! ## Fully-qualified domain names

Modelled from the spec: search domains are fully-qualified domain names; the
encoder writes them "without a trailing dot", and the decoder parses the
remainder of a `search` line as a single domain token — "a line listing
several domains separated by spaces will fail to parse as a single domain".
The FQDN type and `ToFQDN` live in `util/dnsname`, which is code of this
repository not present under `src/`. -/

structure FQDN where
  s : String
deriving DecidableEq

/-- `FQDN.WithoutTrailingDot`: the name with its trailing dot removed. -/
def FQDN.withoutTrailingDot (d : FQDN) : String :=
  if d.s.toList.getLast? = some '.' then String.mk d.s.toList.dropLast else d.s

/-- Modelled from the spec: `dnsname.ToFQDN` on a domain token; it fails on
an empty token and on a token with embedded whitespace, and appends the
trailing dot when missing. -/
def toFQDN (t : List Char) : Option FQDN :=
  if t = [] then none
  else if t.any isGoSpace then none
  else if t.getLast? = some '.' then some ⟨String.mk t⟩
  else some ⟨String.mk (t ++ ['.'])⟩

/-- Characters that may appear in a well-formed search domain: not
whitespace (would split or trim away) and not `#` (would start a comment). -/
def fqdnOkChar (c : Char) : Bool := !isGoSpace c && c ≠ '#'

/-- A well-formed fully-qualified domain: non-empty body, exactly one
trailing dot, and only benign characters (this is the invariant the Go
`FQDN` type maintains by construction). -/
def FQDN.wf (d : FQDN) : Bool :=
  d.s.toList.getLast? = some '.' && d.s.toList.dropLast ≠ [] &&
    d.s.toList.dropLast.getLast? ≠ some '.' && d.s.toList.all fqdnOkChar

/-! ## OS configuration -/

structure OSConfig where
  nameservers : List IP
  searchDomains : List FQDN
deriving DecidableEq

/-- Modelled from the spec: "A configuration is zero when both sequences are
empty" (`OSConfig.IsZero` lives outside `src/`). -/
def OSConfig.isZero (c : OSConfig) : Bool :=
  c.nameservers.isEmpty && c.searchDomains.isEmpty

/-! ## The resolv.conf codec (`writeResolvConf` / `readResolv`) -/

def resolvHeader : String :=
  "# resolv.conf(5) file generated by tailscale\n# DO NOT EDIT THIS FILE BY HAND -- CHANGES WILL BE OVERWRITTEN\n\n"

/-- The nameserver lines, in input order (the first loop of Go
`writeResolvConf`). -/
def nsLinesStr : List IP → String
  | [] => ""
  | ip :: rest => "nameserver " ++ ip.render ++ "\n" ++ nsLinesStr rest

/-- The body of the `search` line (the inner loop of Go `writeResolvConf`). -/
def searchItems : List FQDN → String
  | [] => ""
  | d :: rest => " " ++ d.withoutTrailingDot ++ searchItems rest

/-- Go `writeResolvConf`: header comments, blank line, one `nameserver` line
per server, then a single space-separated `search` line when domains are
non-empty. -/
def writeResolvConf (servers : List IP) (domains : List FQDN) : String :=
  resolvHeader ++ nsLinesStr servers ++
    (if domains.isEmpty then "" else "search" ++ searchItems domains ++ "\n")

def nsTok : List Char := "nameserver".toList

def searchTok : List Char := "search".toList

/-- Go comment stripping: `line = line[:strings.IndexByte(line, '#')]`. -/
def stripComment (l : List Char) : List Char := l.takeWhile (fun c => c ≠ '#')

/-- The characters of one generated `nameserver` line (without newline). -/
def nsLineChars (ip : IP) : List Char := nsTok ++ ' ' :: ip.renderChars

/-- The characters of a generated `search` line body (without newline). -/
def searchLineChars (t : List Char) : List Char := searchTok ++ ' ' :: t

/-- One iteration of the Go `readResolv` scanner loop on an already-split
raw line. -/
def readResolvLine (cfg : OSConfig) (raw : List Char) : Except Err OSConfig :=
  let line := stripComment (goTrim raw)
  if hasPrefixL line nsTok then
    let s := line.drop nsTok.length
    let ns := goTrim s
    if ns.length = s.length then .error .fault
    else
      match parseIPChars ns with
      | none => .error .fault
      | some ip => .ok ⟨cfg.nameservers ++ [ip], cfg.searchDomains⟩
  else if hasPrefixL line searchTok then
    let s := line.drop searchTok.length
    let dom := goTrim s
    if dom.length = s.length then .error .fault
    else
      match toFQDN dom with
      | none => .error .fault
      | some d => .ok ⟨cfg.nameservers, cfg.searchDomains ++ [d]⟩
  else .ok cfg

def readResolvLoop : OSConfig → List (List Char) → Except Err OSConfig
  | cfg, [] => .ok cfg
  | cfg, ln :: rest =>
    match readResolvLine cfg ln with
    | .error e => .error e
    | .ok cfg2 => readResolvLoop cfg2 rest

/-- Go `readResolv` over the full text of a resolv.conf file. -/
def readResolv (text : String) : Except Err OSConfig :=
  readResolvLoop ⟨[], []⟩ (goLines text.toList)

/-! ## `resolvOwner` -/

def ownSd : List Char := "systemd-resolved".toList

def ownNM : List Char := "NetworkManager".toList

def ownRc : List Char := "resolvconf".toList

/-- The loop of Go `resolvOwner`: `likely` is the accumulator; the list holds
the newline-terminated lines (`bytes.Buffer.ReadString` returns an error for
the final unterminated chunk, upon which the Go loop returns `likely`
without examining that chunk). -/
def ownerLoop : String → List (List Char) → String
  | likely, [] => likely
  | likely, ln :: rest =>
    let line := goTrim ln
    if line = [] then ownerLoop likely rest
    else if line.head? ≠ some '#' then likely
    else
      if containsSub line ownSd then ownerLoop "systemd-resolved" rest
      else if containsSub line ownNM then ownerLoop "NetworkManager" rest
      else if containsSub line ownRc then ownerLoop "resolvconf" rest
      else ownerLoop likely rest

/-- Go `resolvOwner`: apparent owner of the resolv.conf content. -/
def resolvOwner (bs : String) : String :=
  ownerLoop "" ((splitCh '\n' bs.toList).dropLast)

/-- The owner name recognized on a single (trimmed) line, in the priority
order of the Go if-chain. -/
def recognizeOwner (line : List Char) : Option String :=
  if containsSub line ownSd then some "systemd-resolved"
  else if containsSub line ownNM then some "NetworkManager"
  else if containsSub line ownRc then some "resolvconf"
  else none

/-- A line belonging to the leading comment/blank run. -/
def isCommentOrBlank (ln : List Char) : Bool :=
  goTrim ln = [] || (goTrim ln).head? = some '#'

/-- The claim's reading of `resolvOwner`: the FIRST recognized name in the
leading comment/blank run. -/
def resolvOwnerFirst (bs : String) : String :=
  (((((splitCh '\n' bs.toList).dropLast).takeWhile isCommentOrBlank).filterMap
    (fun ln => recognizeOwner (goTrim ln))).head?).getD ""

/-- The amended reading: the LAST recognized name among the
newline-terminated lines of the leading comment/blank run. -/
def resolvOwnerLast (bs : String) : String :=
  (((((splitCh '\n' bs.toList).dropLast).takeWhile isCommentOrBlank).filterMap
    (fun ln => recognizeOwner (goTrim ln))).getLast?).getD ""

/-! ## The file-system model (`wholeFileFS`)

The virtual file system is a partial map from absolute paths to contents.
Every file it holds was produced by `WriteFile`, so `Stat`'s `isRegular`
result is always true for an existing path.  The `Faults` record injects the
failures the claims quantify over: `renameFails` makes every real `Rename`
attempt fail, and the two path lists make `WriteFile`/`Remove` fail on the
listed paths. -/

def resolvConf : String := "/etc/resolv.conf"

def backupConf : String := "/etc/resolv.pre-tailscale-backup.conf"

def legacyConf : String := "/etc/resolv.tailscale.conf"

/-- The ownership marker scanned for by `ownedByTailscale`. -/
def marker : String := "generated by tailscale"

def Fs : Type := String → Option String

def fsSet (f : Fs) (p v : String) : Fs := fun q => if q = p then some v else f q

def fsDel (f : Fs) (p : String) : Fs := fun q => if q = p then none else f q

structure Faults where
  renameFails : Bool
  writeFailPaths : List String
  removeFailPaths : List String

def noFaults : Faults := ⟨false, [], []⟩

/-- The fault model of claim C5/C6: every real rename attempt fails. -/
def renameFaulty : Faults := ⟨true, [], []⟩

def statF (f : Fs) (p : String) : Except Err Bool :=
  match f p with
  | some _ => .ok true
  | none => .error .notExist

def readF (f : Fs) (p : String) : Except Err String :=
  match f p with
  | some c => .ok c
  | none => .error .notExist

def writeF (ft : Faults) (f : Fs) (p c : String) : Except Err Fs :=
  if ft.writeFailPaths.contains p then .error .fault else .ok (fsSet f p c)

def removeF (ft : Faults) (f : Fs) (p : String) : Except Err Fs :=
  if ft.removeFailPaths.contains p then .error .fault
  else
    match f p with
    | some _ => .ok (fsDel f p)
    | none => .error .notExist

def truncateF (f : Fs) (p : String) : Except Err Fs :=
  match f p with
  | some _ => .ok (fsSet f p "")
  | none => .error .notExist

def renameRealF (ft : Faults) (f : Fs) (old new : String) : Except Err Fs :=
  if ft.renameFails then .error .fault
  else
    match f old with
    | some c => .ok (fsSet (fsDel f old) new c)
    | none => .error .notExist

/-- Removal whose error is discarded (Go `m.fs.Remove(...)` with the result
ignored). -/
def removeIgnore (ft : Faults) (f : Fs) (p : String) : Fs :=
  match removeF ft f p with
  | .ok f2 => f2
  | .error _ => f

/-! ## The direct manager -/

/-- Manager state: the file system it operates on plus the sticky
`renameBroken` flag of `directManager`. -/
structure World where
  files : Fs
  renameBroken : Bool

/-- Go `newDirectManager`: the `renameBroken` flag starts at its zero value,
false. -/
def newDirectManager (f : Fs) : World := ⟨f, false⟩

/-- Go `directManager.ownedByTailscale`. -/
def ownedByTailscale (w : World) : Except Err Bool :=
  match statF w.files resolvConf with
  | .error e => if e = .notExist then .ok false else .error e
  | .ok isReg =>
    if !isReg then .ok false
    else
      match readF w.files resolvConf with
      | .error e => .error e
      | .ok bs => .ok (strContains bs marker)

/-- The copy+delete/truncate emulation of rename (the second half of Go
`directManager.rename`).  Errors are wrapped by Go with `fmt.Errorf`, hence
`fault`.  The returned state survives even on error, as the real file system
does. -/
def renameFallback (ft : Faults) (f : Fs) (old new : String) : Except Err Unit × Fs :=
  match readF f old with
  | .error _ => (.error .fault, f)
  | .ok bs =>
    match writeF ft f new bs with
    | .error _ => (.error .fault, f)
    | .ok f2 =>
      match removeF ft f2 old with
      | .ok f3 => (.ok (), f3)
      | .error _ =>
        match truncateF f2 old with
        | .ok f3 => (.ok (), f3)
        | .error _ => (.error .fault, f2)

/-- Go `directManager.rename`: try the real rename unless the flag is
already set; on a real failure set the sticky flag and fall back. -/
def rename (ft : Faults) (old new : String) (w : World) : Except Err Unit × World :=
  if w.renameBroken then
    match renameFallback ft w.files old new with
    | (res, f2) => (res, ⟨f2, true⟩)
  else
    match renameRealF ft w.files old new with
    | .ok f2 => (.ok (), ⟨f2, false⟩)
    | .error _ =>
      match renameFallback ft w.files old new with
      | (res, f2) => (res, ⟨f2, true⟩)

/-- Go `directManager.backupConfig`. -/
def backupConfig (ft : Faults) (w : World) : Except Err Unit × World :=
  match statF w.files resolvConf with
  | .error e =>
    if e = .notExist then (.ok (), ⟨removeIgnore ft w.files backupConf, w.renameBroken⟩)
    else (.error e, w)
  | .ok _ =>
    match ownedByTailscale w with
    | .error e => (.error e, w)
    | .ok owned => if owned then (.ok (), w) else rename ft resolvConf backupConf w

/-- The tail of Go `directManager.restoreBackup` after the two stats and the
ownership check. -/
def restoreBackupTail (ft : Faults) (w : World) (owned resolvConfExists : Bool) :
    Except Err Bool × World :=
  if resolvConfExists && !owned then
    (.ok false, ⟨removeIgnore ft w.files backupConf, w.renameBroken⟩)
  else
    match rename ft backupConf resolvConf w with
    | (.error e, w2) => (.error e, w2)
    | (.ok _, w2) => (.ok true, w2)

/-- Go `directManager.restoreBackup`. -/
def restoreBackup (ft : Faults) (w : World) : Except Err Bool × World :=
  match statF w.files backupConf with
  | .error e => if e = .notExist then (.ok false, w) else (.error e, w)
  | .ok _ =>
    match ownedByTailscale w with
    | .error e => (.error e, w)
    | .ok owned =>
      match statF w.files resolvConf with
      | .error e =>
        if e = .notExist then restoreBackupTail ft w owned false else (.error e, w)
      | .ok _ => restoreBackupTail ft w owned true

/-- The temporary path Go `atomicWriteFile` derives: the target name, a dot,
the hex of 12 random bytes (abstracted as the string `r`), and `.tmp`. -/
def tmpName (filename r : String) : String := filename ++ "." ++ r ++ ".tmp"

/-- Go `directManager.atomicWriteFile`.  The deferred `fs.Remove(tmpName)`
runs on every exit path with its error discarded. -/
def atomicWriteFile (ft : Faults) (r : String) (filename data : String) (w : World) :
    Except Err Unit × World :=
  match writeF ft w.files (tmpName filename r) data with
  | .error _ => (.error .fault, ⟨removeIgnore ft w.files (tmpName filename r), w.renameBroken⟩)
  | .ok f1 =>
    match rename ft (tmpName filename r) filename ⟨f1, w.renameBroken⟩ with
    | (res, w2) => (res, ⟨removeIgnore ft w2.files (tmpName filename r), w2.renameBroken⟩)

/-- Go `directManager.SetDNS`.  The best-effort systemd-resolved restart has
no effect on the file system and is not modelled. -/
def SetDNS (ft : Faults) (r : String) (config : OSConfig) (w : World) :
    Except Err Unit × World :=
  if config.isZero then
    match restoreBackup ft w with
    | (.error e, w2) => (.error e, w2)
    | (.ok _, w2) => (.ok (), w2)
  else
    match backupConfig ft w with
    | (.error e, w2) => (.error e, w2)
    | (.ok _, w2) =>
      atomicWriteFile ft r resolvConf (writeResolvConf config.nameservers config.searchDomains)
        w2

/-- Go `directManager.readResolvFile`. -/
def readResolvFile (w : World) (path : String) : Except Err OSConfig :=
  match readF w.files path with
  | .error e => .error e
  | .ok b => readResolv b

/-- Go `directManager.GetBaseConfig`. -/
def GetBaseConfig (w : World) : Except Err OSConfig :=
  match ownedByTailscale w with
  | .error e => .error e
  | .ok owned => readResolvFile w (if owned then backupConf else resolvConf)

/-- The tail of Go `directManager.Close` (same shape as `restoreBackup`'s,
but the restored signal is discarded). -/
def closeTail (ft : Faults) (w : World) (owned resolvConfExists : Bool) :
    Except Err Unit × World :=
  if resolvConfExists && !owned then
    (.ok (), ⟨removeIgnore ft w.files backupConf, w.renameBroken⟩)
  else
    match rename ft backupConf resolvConf w with
    | (.error e, w2) => (.error e, w2)
    | (.ok _, w2) => (.ok (), w2)

/-- The part of Go `directManager.Close` after the legacy-artifact removal,
operating on the state `w0` that removal produced. -/
def closeAfterLegacy (ft : Faults) (w0 : World) : Except Err Unit × World :=
  match statF w0.files backupConf with
  | .error e => if e = .notExist then (.ok (), w0) else (.error e, w0)
  | .ok _ =>
    match ownedByTailscale w0 with
    | .error e => (.error e, w0)
    | .ok owned =>
      match statF w0.files resolvConf with
      | .error e =>
        if e = .notExist then closeTail ft w0 owned false else (.error e, w0)
      | .ok _ => closeTail ft w0 owned true

/-- Go `directManager.Close`: remove the legacy artifact (error ignored),
then restore the backup as `restoreBackup` does. -/
def Close (ft : Faults) (w : World) : Except Err Unit × World :=
  closeAfterLegacy ft ⟨removeIgnore ft w.files legacyConf, w.renameBroken⟩

/-! ## Helper lemmas -/

theorem hasPrefixL_nil (l : List Char) : hasPrefixL l [] = true := by
  cases l <;> rfl

theorem hasPrefixL_append (xs ys : List Char) : hasPrefixL (xs ++ ys) xs = true := by
  induction xs with
  | nil => exact hasPrefixL_nil ys
  | cons a as ih => simp [hasPrefixL, ih]

theorem hasPrefixL_mono (xs pat ys : List Char) (h : hasPrefixL xs pat = true) :
    hasPrefixL (xs ++ ys) pat = true := by
  induction pat generalizing xs with
  | nil => exact hasPrefixL_nil _
  | cons b bs ih =>
    cases xs with
    | nil => simp [hasPrefixL] at h
    | cons a as =>
      simp only [hasPrefixL, Bool.and_eq_true] at h ⊢
      exact ⟨h.1, ih as h.2⟩

theorem containsSub_append_left (xs ys pat : List Char)
    (h : containsSub xs pat = true) : containsSub (xs ++ ys) pat = true := by
  induction xs with
  | nil =>
    simp only [containsSub] at h
    cases ys with
    | nil => simpa [containsSub] using h
    | cons b bs =>
      simp only [List.nil_append, containsSub]
      cases pat with
      | nil => rfl
      | cons p ps => simp [hasPrefixL] at h
  | cons a as ih =>
    simp only [containsSub, Bool.or_eq_true] at h
    rcases h with h | h
    · simp only [List.cons_append, containsSub, Bool.or_eq_true]
      exact Or.inl (hasPrefixL_mono _ _ _ h)
    · simp only [List.cons_append, containsSub, Bool.or_eq_true]
      exact Or.inr (ih h)

theorem splitCh_sep_cons (sep : Char) (xs ys : List Char) (h : sep ∉ xs) :
    splitCh sep (xs ++ sep :: ys) = xs :: splitCh sep ys := by
  induction xs with
  | nil => simp [splitCh]
  | cons a as ih =>
    have ha : a ≠ sep := fun hc => h (hc ▸ List.mem_cons_self a as)
    have has : sep ∉ as := fun hc => h (List.mem_cons_of_mem a hc)
    have ihs := ih has
    simp only [List.cons_append, splitCh, if_neg ha]
    rw [List.append_eq, ihs]

theorem splitCh_no_sep (sep : Char) (xs : List Char) (h : sep ∉ xs) :
    splitCh sep xs = [xs] := by
  induction xs with
  | nil => rfl
  | cons a as ih =>
    have ha : a ≠ sep := fun hc => h (hc ▸ List.mem_cons_self a as)
    have has : sep ∉ as := fun hc => h (List.mem_cons_of_mem a hc)
    simp only [splitCh, if_neg ha, ih has]

theorem splitCh_joinNl (lines : List (List Char))
    (h : ∀ l ∈ lines, '\n' ∉ l) :
    splitCh '\n' (joinNl lines) = lines ++ [[]] := by
  induction lines with
  | nil => rfl
  | cons l ls ih =>
    have hl : '\n' ∉ l := h l (List.mem_cons_self l ls)
    have hls : ∀ x ∈ ls, '\n' ∉ x := fun x hx => h x (List.mem_cons_of_mem l hx)
    simp only [joinNl, splitCh_sep_cons '\n' l (joinNl ls) hl, ih hls, List.cons_append]

theorem goLines_joinNl (lines : List (List Char))
    (h : ∀ l ∈ lines, '\n' ∉ l) :
    goLines (joinNl lines) = lines := by
  simp only [goLines, splitCh_joinNl lines h]
  rw [if_pos]
  · exact List.dropLast_concat
  · simp


theorem fsSet_same (f : Fs) (p v : String) : fsSet f p v p = some v := by simp [fsSet]

theorem fsSet_other (f : Fs) (p v q : String) (h : q ≠ p) : fsSet f p v q = f q := by
  simp [fsSet, h]

theorem fsDel_same (f : Fs) (p : String) : fsDel f p p = none := by simp [fsDel]

theorem fsDel_other (f : Fs) (p q : String) (h : q ≠ p) : fsDel f p q = f q := by
  simp [fsDel, h]

theorem backup_ne_resolv : backupConf ≠ resolvConf := by decide

theorem resolv_ne_backup : resolvConf ≠ backupConf := by decide

theorem legacy_ne_resolv : legacyConf ≠ resolvConf := by decide

theorem legacy_ne_backup : legacyConf ≠ backupConf := by decide

theorem tmpName_ne_self (fn r : String) : tmpName fn r ≠ fn := by
  intro h
  have hl := congrArg String.length h
  simp only [tmpName, String.length_append] at hl
  have h1 : ("." : String).length = 1 := rfl
  have h2 : (".tmp" : String).length = 4 := rfl
  omega

theorem tmpName_resolv_ne_backup (r : String) : tmpName resolvConf r ≠ backupConf := by
  intro h
  have hd := congrArg (fun s => s.data.take 13) h
  simp only [tmpName, String.data_append] at hd
  rw [List.append_assoc, List.append_assoc,
    List.take_append_of_le_length (by decide : 13 ≤ resolvConf.data.length)] at hd
  revert hd
  decide

theorem backup_ne_tmp_resolv (r : String) : backupConf ≠ tmpName resolvConf r :=
  fun h => tmpName_resolv_ne_backup r h.symm

theorem resolv_ne_tmp (fn r : String) : fn ≠ tmpName fn r :=
  fun h => tmpName_ne_self fn r h.symm

/-- Every generated configuration file contains the ownership marker in its
header. -/
theorem writeResolvConf_owned (servers : List IP) (domains : List FQDN) :
    strContains (writeResolvConf servers domains) marker = true := by
  have hh : containsSub resolvHeader.data marker.data = true := by decide
  show containsSub (writeResolvConf servers domains).data marker.data = true
  simp only [writeResolvConf, String.data_append]
  rw [List.append_assoc]
  exact containsSub_append_left _ _ _ hh

theorem getLastD_cons (a x : String) (l : List String) :
    ((a :: l).getLast?).getD x = (l.getLast?).getD a := by
  induction l generalizing a x with
  | nil => rfl
  | cons b bs ih => rw [List.getLast?_cons_cons, ih b x, ih b a]

theorem ownerLoop_eq (lines : List (List Char)) (likely : String) :
    ownerLoop likely lines =
      (((lines.takeWhile isCommentOrBlank).filterMap
        (fun ln => recognizeOwner (goTrim ln))).getLast?).getD likely := by
  induction lines generalizing likely with
  | nil => rfl
  | cons ln rest ih =>
    by_cases hb : goTrim ln = []
    · have hcb : isCommentOrBlank ln = true := by simp [isCommentOrBlank, hb]
      have hro : recognizeOwner (goTrim ln) = none := by
        rw [hb]; rfl
      rw [List.takeWhile_cons_of_pos hcb]
      simp only [List.filterMap_cons, hro]
      rw [show ownerLoop likely (ln :: rest) = ownerLoop likely rest by
        simp [ownerLoop, hb]]
      exact ih likely
    · by_cases hh : (goTrim ln).head? = some '#'
      · have hcb : isCommentOrBlank ln = true := by simp [isCommentOrBlank, hh]
        rw [List.takeWhile_cons_of_pos hcb]
        have step : ownerLoop likely (ln :: rest) =
            ownerLoop ((recognizeOwner (goTrim ln)).getD likely) rest := by
          simp only [ownerLoop, recognizeOwner]
          rw [if_neg hb, if_neg (by simp [hh])]
          by_cases h1 : containsSub (goTrim ln) ownSd = true
          · simp [h1]
          · by_cases h2 : containsSub (goTrim ln) ownNM = true
            · simp [h1, h2]
            · by_cases h3 : containsSub (goTrim ln) ownRc = true
              · simp [h1, h2, h3]
              · simp [h1, h2, h3]
        rw [step]
        cases hro : recognizeOwner (goTrim ln) with
        | none =>
          simp only [List.filterMap_cons, hro, Option.getD_none]
          exact ih likely
        | some n =>
          simp only [List.filterMap_cons, hro, Option.getD_some]
          rw [ih n]
          exact (getLastD_cons n likely _).symm
      · have hcb : isCommentOrBlank ln = false := by
          simp [isCommentOrBlank, hb, hh]
        rw [List.takeWhile_cons_of_neg (by simp [hcb])]
        simp only [List.filterMap_nil, List.getLast?_nil, Option.getD_none]
        simp [ownerLoop, hb, hh]

/-- C7 (amended): `resolvOwner` scans the leading run of newline-terminated
comment/blank lines and returns the LAST recognized resolver-manager name
seen in that run (or empty). -/
theorem resolvOwner_eq_last (bs : String) : resolvOwner bs = resolvOwnerLast bs :=
  ownerLoop_eq _ ""

/-- C7 counterexample: on a file whose leading comment run names
systemd-resolved first and NetworkManager second, `resolvOwner` returns
"NetworkManager", not the first recognized name "systemd-resolved" the claim
requires. -/
theorem resolvOwner_not_first :
    resolvOwner "# systemd-resolved\n# NetworkManager\nnameserver 1.1.1.1\n" =
        "NetworkManager" ∧
      resolvOwnerFirst "# systemd-resolved\n# NetworkManager\nnameserver 1.1.1.1\n" =
        "systemd-resolved" := by
  exact ⟨by decide, by decide⟩

/-- C4 (amended): when the primary file is owned (contains the marker) and
no backup file exists, `GetBaseConfig` returns the file-not-found error from
reading the backup, not a zero-value configuration. -/
theorem getBaseConfig_owned_no_backup (w : World) (pc : String)
    (hp : w.files resolvConf = some pc) (hm : strContains pc marker = true)
    (hb : w.files backupConf = none) :
    GetBaseConfig w = .error .notExist := by
  simp [GetBaseConfig, ownedByTailscale, statF, readF, readResolvFile, hp, hm, hb]

theorem getBaseConfig_owned_no_backup_witness :
    GetBaseConfig ⟨fun p => if p = resolvConf then some resolvHeader else none, true⟩ =
      .error .notExist :=
  getBaseConfig_owned_no_backup _ resolvHeader (by decide) (by decide) (by decide)

/-- C4 counterexample: primary owned (it is exactly the generated header),
backup absent; `GetBaseConfig` returns a not-exist error, not the zero
configuration with no error that the claim requires. -/
theorem getBaseConfig_owned_no_backup_cex :
    GetBaseConfig ⟨fun p => if p = resolvConf then some resolvHeader else none, false⟩ =
        .error .notExist ∧
      (Except.error Err.notExist : Except Err OSConfig) ≠ .ok ⟨[], []⟩ := by
  refine ⟨rfl, fun h => ?_⟩
  exact Except.noConfusion h

/-! ## Flag monotonicity helpers (for C6) -/

theorem rename_stays (ft : Faults) (old new : String) (w : World)
    (h : w.renameBroken = true) : ((rename ft old new w).2).renameBroken = true := by
  simp [rename, h]

theorem backupConfig_stays (ft : Faults) (w : World)
    (h : w.renameBroken = true) : ((backupConfig ft w).2).renameBroken = true := by
  unfold backupConfig
  split
  · split
    · exact h
    · exact h
  · split
    · exact h
    · split
      · exact h
      · exact rename_stays _ _ _ _ h

theorem restoreBackupTail_stays (ft : Faults) (w : World) (owned rce : Bool)
    (h : w.renameBroken = true) :
    ((restoreBackupTail ft w owned rce).2).renameBroken = true := by
  have hr := rename_stays ft backupConf resolvConf w h
  unfold restoreBackupTail
  by_cases hc : (rce && !owned) = true
  · rw [if_pos hc]; exact h
  · rw [if_neg hc]
    rcases hrw : rename ft backupConf resolvConf w with ⟨res, w2⟩
    rw [hrw] at hr
    cases res <;> exact hr

theorem restoreBackup_stays (ft : Faults) (w : World)
    (h : w.renameBroken = true) : ((restoreBackup ft w).2).renameBroken = true := by
  unfold restoreBackup
  split
  · split
    · exact h
    · exact h
  · split
    · exact h
    · split
      · split
        · exact restoreBackupTail_stays _ _ _ _ h
        · exact h
      · exact restoreBackupTail_stays _ _ _ _ h

theorem atomicWriteFile_stays (ft : Faults) (r filename data : String) (w : World)
    (h : w.renameBroken = true) :
    ((atomicWriteFile ft r filename data w).2).renameBroken = true := by
  unfold atomicWriteFile
  cases hw : writeF ft w.files (tmpName filename r) data with
  | error e => exact h
  | ok f1 =>
    dsimp only
    have hr := rename_stays ft (tmpName filename r) filename ⟨f1, w.renameBroken⟩ h
    rcases hrw : rename ft (tmpName filename r) filename ⟨f1, w.renameBroken⟩ with ⟨res, w2⟩
    rw [hrw] at hr
    exact hr

theorem setDNS_stays (ft : Faults) (r : String) (cfg : OSConfig) (w : World)
    (h : w.renameBroken = true) : ((SetDNS ft r cfg w).2).renameBroken = true := by
  unfold SetDNS
  by_cases hz : cfg.isZero = true
  · rw [if_pos hz]
    have hr := restoreBackup_stays ft w h
    rcases hrw : restoreBackup ft w with ⟨res, w2⟩
    rw [hrw] at hr
    cases res <;> exact hr
  · rw [if_neg hz]
    have hb := backupConfig_stays ft w h
    rcases hrw : backupConfig ft w with ⟨res, w2⟩
    rw [hrw] at hb
    cases res
    · exact hb
    · exact atomicWriteFile_stays _ _ _ _ _ hb

theorem closeTail_stays (ft : Faults) (w : World) (owned rce : Bool)
    (h : w.renameBroken = true) :
    ((closeTail ft w owned rce).2).renameBroken = true := by
  have hr := rename_stays ft backupConf resolvConf w h
  unfold closeTail
  by_cases hc : (rce && !owned) = true
  · rw [if_pos hc]; exact h
  · rw [if_neg hc]
    rcases hrw : rename ft backupConf resolvConf w with ⟨res, w2⟩
    rw [hrw] at hr
    cases res <;> exact hr

theorem closeAfterLegacy_stays (ft : Faults) (w0 : World)
    (h : w0.renameBroken = true) : ((closeAfterLegacy ft w0).2).renameBroken = true := by
  unfold closeAfterLegacy
  split
  · split
    · exact h
    · exact h
  · split
    · exact h
    · split
      · split
        · exact closeTail_stays _ _ _ _ h
        · exact h
      · exact closeTail_stays _ _ _ _ h

theorem close_stays (ft : Faults) (w : World)
    (h : w.renameBroken = true) : ((Close ft w).2).renameBroken = true :=
  closeAfterLegacy_stays ft _ h

/-- C6: the rename-capability flag is sticky: it starts false ("rename
works"); a failing real rename attempt flips it to true; once true, the real
rename is never attempted again (the outcome is independent of whether real
renames would fail), and the flag stays true through every rename and every
public operation for the rest of the process lifetime. -/
theorem renameBroken_sticky :
    (∀ f : Fs, (newDirectManager f).renameBroken = false) ∧
    (∀ (wp rp : List String) (f : Fs) (old new : String),
      ((rename ⟨true, wp, rp⟩ old new ⟨f, false⟩).2).renameBroken = true) ∧
    (∀ (rf rf' : Bool) (wp rp : List String) (f : Fs) (old new : String),
      rename ⟨rf, wp, rp⟩ old new ⟨f, true⟩ = rename ⟨rf', wp, rp⟩ old new ⟨f, true⟩) ∧
    (∀ (ft : Faults) (f : Fs) (old new : String),
      ((rename ft old new ⟨f, true⟩).2).renameBroken = true) ∧
    (∀ (ft : Faults) (r : String) (cfg : OSConfig) (f : Fs),
      ((SetDNS ft r cfg ⟨f, true⟩).2).renameBroken = true) ∧
    (∀ (ft : Faults) (f : Fs), ((Close ft ⟨f, true⟩).2).renameBroken = true) := by
  refine ⟨fun f => rfl, fun wp rp f old new => ?_, fun rf rf' wp rp f old new => rfl,
    fun ft f old new => rename_stays ft old new ⟨f, true⟩ rfl,
    fun ft r cfg f => setDNS_stays ft r cfg ⟨f, true⟩ rfl,
    fun ft f => close_stays ft ⟨f, true⟩ rfl⟩
  simp [rename, renameRealF]

/-! ## File-operation success lemmas -/

theorem removeIgnore_other (ft : Faults) (f : Fs) (p q : String) (h : q ≠ p) :
    removeIgnore ft f p q = f q := by
  unfold removeIgnore removeF
  split
  · rfl
  · split
    · exact fsDel_other _ _ _ h
    · rfl

theorem removeIgnore_clean (ft : Faults) (f : Fs) (p c : String)
    (hrp : ft.removeFailPaths = []) (hp : f p = some c) :
    removeIgnore ft f p = fsDel f p := by
  unfold removeIgnore removeF
  rw [hrp]
  simp [hp]

theorem removeIgnore_absent (ft : Faults) (f : Fs) (p : String)
    (hrp : ft.removeFailPaths = []) (hp : f p = none) :
    removeIgnore ft f p = f := by
  unfold removeIgnore removeF
  rw [hrp]
  simp [hp]

theorem removeIgnore_fault (ft : Faults) (f : Fs) (p : String)
    (h : p ∈ ft.removeFailPaths) : removeIgnore ft f p = f := by
  unfold removeIgnore removeF
  rw [if_pos (List.elem_eq_true_of_mem h)]

theorem removeIgnore_miss (ft : Faults) (f : Fs) (p : String)
    (hc : ft.removeFailPaths.contains p = false) (hp : f p = none) :
    removeIgnore ft f p = f := by
  unfold removeIgnore removeF
  rw [hc]
  simp [hp]

/-- With no write/remove faults injected, `rename` succeeds whenever the
source exists, moving the content; the sticky flag ends true exactly when it
already was true or the real rename attempt failed. -/
theorem rename_ok (ft : Faults) (hwp : ft.writeFailPaths = []) (hrp : ft.removeFailPaths = [])
    (w : World) (old new bc : String)
    (hold : w.files old = some bc) (hne : new ≠ old) :
    ∃ w', rename ft old new w = (.ok (), w') ∧
      w'.files new = some bc ∧ w'.files old = none ∧
      (∀ q, q ≠ old → q ≠ new → w'.files q = w.files q) ∧
      w'.renameBroken = (w.renameBroken || ft.renameFails) := by
  have hone : old ≠ new := fun h => hne h.symm
  have h1 : readF w.files old = .ok bc := by simp [readF, hold]
  have h2 : writeF ft w.files new bc = .ok (fsSet w.files new bc) := by
    simp [writeF, hwp]
  have hset : fsSet w.files new bc old = some bc := by
    rw [fsSet_other _ _ _ _ hone]; exact hold
  have h3 : removeF ft (fsSet w.files new bc) old =
      .ok (fsDel (fsSet w.files new bc) old) := by
    simp [removeF, hrp, hset]
  have hfb : renameFallback ft w.files old new =
      (.ok (), fsDel (fsSet w.files new bc) old) := by
    simp [renameFallback, h1, h2, h3]
  by_cases hb : w.renameBroken = true
  · refine ⟨⟨fsDel (fsSet w.files new bc) old, true⟩, ?_, ?_, ?_, ?_, ?_⟩
    · simp [rename, hb, hfb]
    · show fsDel (fsSet w.files new bc) old new = some bc
      rw [fsDel_other _ _ _ hne, fsSet_same]
    · show fsDel (fsSet w.files new bc) old old = none
      exact fsDel_same _ _
    · intro q hqo hqn
      show fsDel (fsSet w.files new bc) old q = w.files q
      rw [fsDel_other _ _ _ hqo, fsSet_other _ _ _ _ hqn]
    · show true = (w.renameBroken || ft.renameFails)
      rw [hb, Bool.true_or]
  · have hb' : w.renameBroken = false := by simpa using hb
    by_cases hrf : ft.renameFails = true
    · have hreal : renameRealF ft w.files old new = .error .fault := by
        simp [renameRealF, hrf]
      refine ⟨⟨fsDel (fsSet w.files new bc) old, true⟩, ?_, ?_, ?_, ?_, ?_⟩
      · simp [rename, hb', hreal, hfb]
      · show fsDel (fsSet w.files new bc) old new = some bc
        rw [fsDel_other _ _ _ hne, fsSet_same]
      · show fsDel (fsSet w.files new bc) old old = none
        exact fsDel_same _ _
      · intro q hqo hqn
        show fsDel (fsSet w.files new bc) old q = w.files q
        rw [fsDel_other _ _ _ hqo, fsSet_other _ _ _ _ hqn]
      · show true = (w.renameBroken || ft.renameFails)
        rw [hb', hrf, Bool.false_or]
    · have hrf' : ft.renameFails = false := by simpa using hrf
      have hreal : renameRealF ft w.files old new =
          .ok (fsSet (fsDel w.files old) new bc) := by
        simp [renameRealF, hrf', hold]
      refine ⟨⟨fsSet (fsDel w.files old) new bc, false⟩, ?_, ?_, ?_, ?_, ?_⟩
      · simp [rename, hb', hreal]
      · show fsSet (fsDel w.files old) new bc new = some bc
        exact fsSet_same _ _ _
      · show fsSet (fsDel w.files old) new bc old = none
        rw [fsSet_other _ _ _ _ hone, fsDel_same]
      · intro q hqo hqn
        show fsSet (fsDel w.files old) new bc q = w.files q
        rw [fsSet_other _ _ _ _ hqn, fsDel_other _ _ _ hqo]
      · show false = (w.renameBroken || ft.renameFails)
        rw [hb', hrf', Bool.false_or]

/-- With no write/remove faults injected, `atomicWriteFile` succeeds from any
state: the target ends with exactly the data, the temporary path does not
survive, and no other path changes. -/
theorem atomicWriteFile_ok (ft : Faults) (hwp : ft.writeFailPaths = [])
    (hrp : ft.removeFailPaths = []) (rs fn data : String) (w : World) :
    ∃ w', atomicWriteFile ft rs fn data w = (.ok (), w') ∧
      w'.files fn = some data ∧ w'.files (tmpName fn rs) = none ∧
      (∀ q, q ≠ fn → q ≠ tmpName fn rs → w'.files q = w.files q) ∧
      w'.renameBroken = (w.renameBroken || ft.renameFails) := by
  have hw : writeF ft w.files (tmpName fn rs) data =
      .ok (fsSet w.files (tmpName fn rs) data) := by
    simp [writeF, hwp]
  obtain ⟨w2, hr, hfn, htn, hfr, hflag⟩ :=
    rename_ok ft hwp hrp ⟨fsSet w.files (tmpName fn rs) data, w.renameBroken⟩
      (tmpName fn rs) fn data (fsSet_same _ _ _) (resolv_ne_tmp fn rs)
  refine ⟨w2, ?_, hfn, htn, ?_, hflag⟩
  · unfold atomicWriteFile
    rw [hw]
    dsimp only
    rw [hr]
    dsimp only
    rw [removeIgnore_absent ft w2.files (tmpName fn rs) hrp htn]
  · intro q hq1 hq2
    rw [hfr q hq2 hq1]
    exact fsSet_other _ _ _ _ hq2

/-- C9: `atomicWriteFile` writes the content to the derived temporary path
and renames it onto the target; with no faults the target ends holding the
data, the temporary path is gone, and nothing else changes; if the write to
the temporary path fails, the operation aborts with the target (and every
path other than the temporary one) unchanged, the removal of the temporary
path still being attempted on that exit path. -/
theorem atomicWrite_spec (w : World) (filename data rs : String) (ft : Faults)
    (hft : tmpName filename rs ∈ ft.writeFailPaths) :
    (∃ w', atomicWriteFile noFaults rs filename data w = (.ok (), w') ∧
      w'.files filename = some data ∧ w'.files (tmpName filename rs) = none ∧
      ∀ q, q ≠ filename → q ≠ tmpName filename rs → w'.files q = w.files q) ∧
    (∃ w', atomicWriteFile ft rs filename data w = (.error .fault, w') ∧
      w'.files filename = w.files filename ∧
      ∀ q, q ≠ tmpName filename rs → w'.files q = w.files q) := by
  constructor
  · obtain ⟨w', h1, h2, h3, h4, _⟩ := atomicWriteFile_ok noFaults rfl rfl rs filename data w
    exact ⟨w', h1, h2, h3, h4⟩
  · have hc : ft.writeFailPaths.contains (tmpName filename rs) = true :=
      List.elem_eq_true_of_mem hft
    have hw : writeF ft w.files (tmpName filename rs) data = .error .fault := by
      unfold writeF
      rw [if_pos hc]
    refine ⟨⟨removeIgnore ft w.files (tmpName filename rs), w.renameBroken⟩, ?_, ?_, ?_⟩
    · unfold atomicWriteFile
      rw [hw]
    · exact removeIgnore_other _ _ _ _ (resolv_ne_tmp filename rs)
    · intro q hq
      exact removeIgnore_other _ _ _ _ hq

theorem atomicWrite_spec_witness :
    ∃ w', atomicWriteFile ⟨false, [tmpName "/a" "r"], []⟩ "r" "/a" "x"
        ⟨fun _ => none, false⟩ = (.error .fault, w') ∧
      w'.files "/a" = none ∧ ∀ q, q ≠ tmpName "/a" "r" → w'.files q = none :=
  (atomicWrite_spec ⟨fun _ => none, false⟩ "/a" "x" "r" ⟨false, [tmpName "/a" "r"], []⟩
    (by simp)).2

/-- C3: for every state with a backup file present (no faults injected):
if the primary exists and is foreign, the backup is deleted, the primary is
not written, and the operation reports not-restored; if the primary is
absent or owned, the backup is renamed onto the primary and the operation
reports restored.  The backup is never restored over a foreign primary. -/
theorem restoreBackup_spec (w : World) (bc : String)
    (hb : w.files backupConf = some bc) :
    (∀ pc, w.files resolvConf = some pc → strContains pc marker = false →
      restoreBackup noFaults w =
        (.ok false, ⟨fsDel w.files backupConf, w.renameBroken⟩)) ∧
    (w.files resolvConf = none →
      ∃ w', restoreBackup noFaults w = (.ok true, w') ∧
        w'.files resolvConf = some bc ∧ w'.files backupConf = none ∧
        (∀ q, q ≠ resolvConf → q ≠ backupConf → w'.files q = w.files q) ∧
        w'.renameBroken = w.renameBroken) ∧
    (∀ pc, w.files resolvConf = some pc → strContains pc marker = true →
      ∃ w', restoreBackup noFaults w = (.ok true, w') ∧
        w'.files resolvConf = some bc ∧ w'.files backupConf = none ∧
        (∀ q, q ≠ resolvConf → q ≠ backupConf → w'.files q = w.files q) ∧
        w'.renameBroken = w.renameBroken) := by
  have hsb : statF w.files backupConf = .ok true := by simp [statF, hb]
  refine ⟨?_, ?_, ?_⟩
  · intro pc hp hm
    have ho : ownedByTailscale w = .ok false := by
      simp [ownedByTailscale, statF, readF, hp, hm]
    have hsp : statF w.files resolvConf = .ok true := by simp [statF, hp]
    unfold restoreBackup
    rw [hsb]
    dsimp only
    rw [ho]
    dsimp only
    rw [hsp]
    dsimp only
    unfold restoreBackupTail
    rw [if_pos (by decide : (true && !false) = true)]
    rw [removeIgnore_clean noFaults w.files backupConf bc rfl hb]
  · intro hpn
    obtain ⟨w', hr, h1, h2, hfr, hfl⟩ :=
      rename_ok noFaults rfl rfl w backupConf resolvConf bc hb resolv_ne_backup
    have ho : ownedByTailscale w = .ok false := by
      simp [ownedByTailscale, statF, hpn]
    have hsp : statF w.files resolvConf = .error .notExist := by simp [statF, hpn]
    refine ⟨w', ?_, h1, h2, fun q hq1 hq2 => hfr q hq2 hq1, by
      rw [hfl]; exact Bool.or_false _⟩
    unfold restoreBackup
    rw [hsb]
    dsimp only
    rw [ho]
    dsimp only
    rw [hsp]
    dsimp only
    rw [if_pos rfl]
    unfold restoreBackupTail
    rw [if_neg (by simp)]
    rw [hr]
  · intro pc hp hm
    obtain ⟨w', hr, h1, h2, hfr, hfl⟩ :=
      rename_ok noFaults rfl rfl w backupConf resolvConf bc hb resolv_ne_backup
    have ho : ownedByTailscale w = .ok true := by
      simp [ownedByTailscale, statF, readF, hp, hm]
    have hsp : statF w.files resolvConf = .ok true := by simp [statF, hp]
    refine ⟨w', ?_, h1, h2, fun q hq1 hq2 => hfr q hq2 hq1, by
      rw [hfl]; exact Bool.or_false _⟩
    unfold restoreBackup
    rw [hsb]
    dsimp only
    rw [ho]
    dsimp only
    rw [hsp]
    dsimp only
    unfold restoreBackupTail
    rw [if_neg (by simp)]
    rw [hr]

theorem restoreBackup_spec_witness :
    restoreBackup noFaults
        ⟨fun p => if p = backupConf then some "b"
          else if p = resolvConf then some "x" else none, false⟩ =
      (.ok false,
        ⟨fsDel (fun p => if p = backupConf then some "b"
          else if p = resolvConf then some "x" else none) backupConf, false⟩) :=
  ((restoreBackup_spec _ "b" (by simp)).1) "x" (by simp [resolv_ne_backup]) (by decide)

/-- C10: when a stale backup is to be discarded — by `backupConfig`
(takeOwnership) in the no-primary state, or by `restoreBackup`/`Close` when
the primary is present and foreign — a failure of the backup-file removal is
silently ignored: the operation returns success (not-restored where
applicable) and the whole state, the still-existing backup included, is
unchanged. -/
theorem staleBackup_removal_ignored (bc pc : String)
    (hm : strContains pc marker = false) :
    (backupConfig ⟨false, [], [backupConf]⟩
        ⟨fun p => if p = backupConf then some bc else none, false⟩ =
      (.ok (), ⟨fun p => if p = backupConf then some bc else none, false⟩)) ∧
    (restoreBackup ⟨false, [], [backupConf]⟩
        ⟨fun p => if p = backupConf then some bc
          else if p = resolvConf then some pc else none, false⟩ =
      (.ok false, ⟨fun p => if p = backupConf then some bc
          else if p = resolvConf then some pc else none, false⟩)) ∧
    (Close ⟨false, [], [backupConf]⟩
        ⟨fun p => if p = backupConf then some bc
          else if p = resolvConf then some pc else none, false⟩ =
      (.ok (), ⟨fun p => if p = backupConf then some bc
          else if p = resolvConf then some pc else none, false⟩)) ∧
    ((fun p => if p = backupConf then some bc
      else if p = resolvConf then some pc else none : Fs) backupConf = some bc) := by
  have hmem : backupConf ∈ (⟨false, [], [backupConf]⟩ : Faults).removeFailPaths := by simp
  refine ⟨?_, ?_, ?_, by simp⟩
  · unfold backupConfig
    rw [show statF (fun p => if p = backupConf then some bc else none) resolvConf =
        .error .notExist from by simp [statF, resolv_ne_backup]]
    dsimp only
    rw [if_pos rfl, removeIgnore_fault _ _ _ hmem]
  · unfold restoreBackup
    rw [show statF (fun p => if p = backupConf then some bc
        else if p = resolvConf then some pc else none) backupConf = .ok true from by
      simp [statF]]
    dsimp only
    rw [show ownedByTailscale ⟨fun p => if p = backupConf then some bc
        else if p = resolvConf then some pc else none, false⟩ = .ok false from by
      simp [ownedByTailscale, statF, readF, resolv_ne_backup, hm]]
    dsimp only
    rw [show statF (fun p => if p = backupConf then some bc
        else if p = resolvConf then some pc else none) resolvConf = .ok true from by
      simp [statF, resolv_ne_backup]]
    dsimp only
    unfold restoreBackupTail
    rw [if_pos (by decide : (true && !false) = true), removeIgnore_fault _ _ _ hmem]
  · unfold Close
    rw [removeIgnore_miss _ _ _ (by decide)
      (by simp [legacy_ne_backup, legacy_ne_resolv])]
    unfold closeAfterLegacy
    rw [show statF (fun p => if p = backupConf then some bc
        else if p = resolvConf then some pc else none) backupConf = .ok true from by
      simp [statF]]
    dsimp only
    rw [show ownedByTailscale ⟨fun p => if p = backupConf then some bc
        else if p = resolvConf then some pc else none, false⟩ = .ok false from by
      simp [ownedByTailscale, statF, readF, resolv_ne_backup, hm]]
    dsimp only
    rw [show statF (fun p => if p = backupConf then some bc
        else if p = resolvConf then some pc else none) resolvConf = .ok true from by
      simp [statF, resolv_ne_backup]]
    dsimp only
    unfold closeTail
    rw [if_pos (by decide : (true && !false) = true), removeIgnore_fault _ _ _ hmem]

theorem staleBackup_removal_ignored_witness :
    backupConfig ⟨false, [], [backupConf]⟩
        ⟨fun p => if p = backupConf then some "b" else none, false⟩ =
      (.ok (), ⟨fun p => if p = backupConf then some "b" else none, false⟩) :=
  (staleBackup_removal_ignored "b" "x" (by decide)).1

/-- Shared trace: from a foreign primary holding `C` (and nothing else on
disk), Apply(non-zero cfg) then Apply(zero), under any fault model that
leaves writes and removals intact (real renames may or may not fail). -/
theorem applyRevert (ft : Faults) (hwp : ft.writeFailPaths = [])
    (hrp : ft.removeFailPaths = []) (C : String) (cfg : OSConfig) (rs rs' : String)
    (hC : strContains C marker = false) (hcfg : cfg.isZero = false) :
    ∃ w1 w2,
      SetDNS ft rs cfg ⟨fun p => if p = resolvConf then some C else none, false⟩ =
        (.ok (), w1) ∧
      w1.files backupConf = some C ∧
      w1.files resolvConf = some (writeResolvConf cfg.nameservers cfg.searchDomains) ∧
      SetDNS ft rs' ⟨[], []⟩ w1 = (.ok (), w2) ∧
      (∀ q, w2.files q = if q = resolvConf then some C else none) := by
  obtain ⟨wA, hrA, hAb, hAr, hAfr, _⟩ :=
    rename_ok ft hwp hrp ⟨fun p => if p = resolvConf then some C else none, false⟩
      resolvConf backupConf C (by simp) backup_ne_resolv
  have hbceq : backupConfig ft ⟨fun p => if p = resolvConf then some C else none, false⟩ =
      (.ok (), wA) := by
    unfold backupConfig
    rw [show statF (fun p => if p = resolvConf then some C else none) resolvConf =
        .ok true from by simp [statF]]
    dsimp only
    rw [show ownedByTailscale ⟨fun p => if p = resolvConf then some C else none, false⟩ =
        .ok false from by simp [ownedByTailscale, statF, readF, hC]]
    dsimp only
    rw [if_neg (by simp)]
    exact hrA
  obtain ⟨w1, hawEq, h1r, h1t, h1fr, _⟩ :=
    atomicWriteFile_ok ft hwp hrp rs resolvConf
      (writeResolvConf cfg.nameservers cfg.searchDomains) wA
  have hs1 : SetDNS ft rs cfg ⟨fun p => if p = resolvConf then some C else none, false⟩ =
      (.ok (), w1) := by
    unfold SetDNS
    rw [if_neg (by simp [hcfg])]
    rw [hbceq]
    dsimp only
    exact hawEq
  have h1b : w1.files backupConf = some C := by
    rw [h1fr backupConf backup_ne_resolv (backup_ne_tmp_resolv rs)]
    exact hAb
  obtain ⟨w2, hr2, h2r, h2b, h2fr, _⟩ :=
    rename_ok ft hwp hrp w1 backupConf resolvConf C h1b resolv_ne_backup
  have hrb : restoreBackup ft w1 = (.ok true, w2) := by
    unfold restoreBackup
    rw [show statF w1.files backupConf = .ok true from by simp [statF, h1b]]
    dsimp only
    rw [show ownedByTailscale w1 = .ok true from by
      simp [ownedByTailscale, statF, readF, h1r, writeResolvConf_owned]]
    dsimp only
    rw [show statF w1.files resolvConf = .ok true from by simp [statF, h1r]]
    dsimp only
    unfold restoreBackupTail
    rw [if_neg (by simp)]
    rw [hr2]
  have hs2 : SetDNS ft rs' ⟨[], []⟩ w1 = (.ok (), w2) := by
    unfold SetDNS
    rw [if_pos (by decide : (⟨[], []⟩ : OSConfig).isZero = true)]
    rw [hrb]
  refine ⟨w1, w2, hs1, h1b, h1r, hs2, ?_⟩
  intro q
  by_cases hqr : q = resolvConf
  · subst hqr
    rw [h2r, if_pos rfl]
  · rw [if_neg hqr]
    by_cases hqb : q = backupConf
    · subst hqb
      exact h2b
    · rw [h2fr q hqb hqr]
      by_cases hqt : q = tmpName resolvConf rs
      · subst hqt
        exact h1t
      · rw [h1fr q hqr hqt, hAfr q hqr hqb]
        dsimp only
        exact if_neg hqr

/-- C1: starting from a foreign primary with content `C` (no marker),
Apply(non-zero cfg) then Apply(zero) yields: after the first call the backup
holds exactly `C`; after the second call the primary holds exactly `C` and
the backup no longer exists. -/
theorem c1_apply_then_revert (C : String) (cfg : OSConfig) (rs rs' : String)
    (hC : strContains C marker = false) (hcfg : cfg.isZero = false) :
    ∃ w1 w2,
      SetDNS noFaults rs cfg ⟨fun p => if p = resolvConf then some C else none, false⟩ =
        (.ok (), w1) ∧
      w1.files backupConf = some C ∧
      SetDNS noFaults rs' ⟨[], []⟩ w1 = (.ok (), w2) ∧
      w2.files resolvConf = some C ∧ w2.files backupConf = none := by
  obtain ⟨w1, w2, h1, h2, _, h4, h5⟩ := applyRevert noFaults rfl rfl C cfg rs rs' hC hcfg
  refine ⟨w1, w2, h1, h2, h4, ?_, ?_⟩
  · rw [h5 resolvConf, if_pos rfl]
  · rw [h5 backupConf, if_neg backup_ne_resolv]

theorem c1_apply_then_revert_witness :
    ∃ w1 w2,
      SetDNS noFaults "aa" ⟨[⟨0, 0, 0, 0⟩], []⟩
          ⟨fun p => if p = resolvConf then some "nameserver 9.9.9.9\n" else none, false⟩ =
        (.ok (), w1) ∧
      w1.files backupConf = some "nameserver 9.9.9.9\n" ∧
      SetDNS noFaults "bb" ⟨[], []⟩ w1 = (.ok (), w2) ∧
      w2.files resolvConf = some "nameserver 9.9.9.9\n" ∧ w2.files backupConf = none :=
  c1_apply_then_revert "nameserver 9.9.9.9\n" ⟨[⟨0, 0, 0, 0⟩], []⟩ "aa" "bb"
    (by decide) (by decide)

/-- C5: under the fault model in which every real rename attempt fails (but
reads, writes, removes and truncates succeed), the same two-call sequence
from a foreign primary with content `C` still ends with the primary holding
exactly `C` and with no other path (backup, temporary, or any other) holding
any content. -/
theorem c5_rename_fault_fallback (C : String) (cfg : OSConfig) (rs rs' : String)
    (hC : strContains C marker = false) (hcfg : cfg.isZero = false) :
    ∃ w1 w2,
      SetDNS renameFaulty rs cfg
          ⟨fun p => if p = resolvConf then some C else none, false⟩ = (.ok (), w1) ∧
      w1.files backupConf = some C ∧
      SetDNS renameFaulty rs' ⟨[], []⟩ w1 = (.ok (), w2) ∧
      (∀ q, w2.files q = if q = resolvConf then some C else none) := by
  obtain ⟨w1, w2, h1, h2, _, h4, h5⟩ := applyRevert renameFaulty rfl rfl C cfg rs rs' hC hcfg
  exact ⟨w1, w2, h1, h2, h4, h5⟩

theorem c5_rename_fault_fallback_witness :
    ∃ w1 w2,
      SetDNS renameFaulty "aa" ⟨[⟨0, 0, 0, 0⟩], []⟩
          ⟨fun p => if p = resolvConf then some "nameserver 9.9.9.9\n" else none, false⟩ =
        (.ok (), w1) ∧
      w1.files backupConf = some "nameserver 9.9.9.9\n" ∧
      SetDNS renameFaulty "bb" ⟨[], []⟩ w1 = (.ok (), w2) ∧
      (∀ q, w2.files q = if q = resolvConf then some "nameserver 9.9.9.9\n" else none) :=
  c5_rename_fault_fallback "nameserver 9.9.9.9\n" ⟨[⟨0, 0, 0, 0⟩], []⟩ "aa" "bb"
    (by decide) (by decide)

/-- `backupConfig` always succeeds when no faults are injected. -/
theorem backupConfig_ok (w : World) :
    ∃ w', backupConfig noFaults w = (.ok (), w') := by
  cases hp : w.files resolvConf with
  | none =>
    refine ⟨⟨removeIgnore noFaults w.files backupConf, w.renameBroken⟩, ?_⟩
    unfold backupConfig
    rw [show statF w.files resolvConf = .error .notExist from by simp [statF, hp]]
    dsimp only
    rw [if_pos rfl]
  | some pc =>
    by_cases hm : strContains pc marker = true
    · refine ⟨w, ?_⟩
      unfold backupConfig
      rw [show statF w.files resolvConf = .ok true from by simp [statF, hp]]
      dsimp only
      rw [show ownedByTailscale w = .ok true from by
        simp [ownedByTailscale, statF, readF, hp, hm]]
      dsimp only
      rw [if_pos rfl]
    · have hm' : strContains pc marker = false := by simpa using hm
      obtain ⟨w', hr, _, _, _, _⟩ :=
        rename_ok noFaults rfl rfl w resolvConf backupConf pc hp backup_ne_resolv
      refine ⟨w', ?_⟩
      unfold backupConfig
      rw [show statF w.files resolvConf = .ok true from by simp [statF, hp]]
      dsimp only
      rw [show ownedByTailscale w = .ok false from by
        simp [ownedByTailscale, statF, readF, hp, hm']]
      dsimp only
      rw [if_neg (by simp)]
      exact hr

/-- `SetDNS` with a non-zero configuration succeeds from any fault-free
state and leaves the primary holding exactly the encoded configuration. -/
theorem setDNS_nonzero_ok (rs : String) (cfg : OSConfig) (w : World)
    (hcfg : cfg.isZero = false) :
    ∃ w', SetDNS noFaults rs cfg w = (.ok (), w') ∧
      w'.files resolvConf = some (writeResolvConf cfg.nameservers cfg.searchDomains) := by
  obtain ⟨wA, hbc⟩ := backupConfig_ok w
  obtain ⟨w', haw, hres, _, _, _⟩ :=
    atomicWriteFile_ok noFaults rfl rfl rs resolvConf
      (writeResolvConf cfg.nameservers cfg.searchDomains) wA
  refine ⟨w', ?_, hres⟩
  unfold SetDNS
  rw [if_neg (by simp [hcfg])]
  rw [hbc]
  dsimp only
  exact haw

/-- C8: applying the same non-zero configuration twice from any starting
state succeeds both times, the primary's content is identical (the encoded
configuration) after either call, and ownership reports true after either
call. -/
theorem c8_apply_idempotent (cfg : OSConfig) (w0 : World) (rs rs' : String)
    (hcfg : cfg.isZero = false) :
    ∃ w1 w2,
      SetDNS noFaults rs cfg w0 = (.ok (), w1) ∧
      SetDNS noFaults rs' cfg w1 = (.ok (), w2) ∧
      w1.files resolvConf = some (writeResolvConf cfg.nameservers cfg.searchDomains) ∧
      w2.files resolvConf = some (writeResolvConf cfg.nameservers cfg.searchDomains) ∧
      ownedByTailscale w1 = .ok true ∧ ownedByTailscale w2 = .ok true := by
  obtain ⟨w1, h1, h1r⟩ := setDNS_nonzero_ok rs cfg w0 hcfg
  obtain ⟨w2, h2, h2r⟩ := setDNS_nonzero_ok rs' cfg w1 hcfg
  refine ⟨w1, w2, h1, h2, h1r, h2r, ?_, ?_⟩
  · simp [ownedByTailscale, statF, readF, h1r, writeResolvConf_owned]
  · simp [ownedByTailscale, statF, readF, h2r, writeResolvConf_owned]

theorem c8_apply_idempotent_witness :
    ∃ w1 w2,
      SetDNS noFaults "aa" ⟨[⟨0, 0, 0, 0⟩], []⟩ ⟨fun _ => none, false⟩ = (.ok (), w1) ∧
      SetDNS noFaults "bb" ⟨[⟨0, 0, 0, 0⟩], []⟩ w1 = (.ok (), w2) ∧
      w1.files resolvConf = some (writeResolvConf [⟨0, 0, 0, 0⟩] []) ∧
      w2.files resolvConf = some (writeResolvConf [⟨0, 0, 0, 0⟩] []) ∧
      ownedByTailscale w1 = .ok true ∧ ownedByTailscale w2 = .ok true :=
  c8_apply_idempotent ⟨[⟨0, 0, 0, 0⟩], []⟩ ⟨fun _ => none, false⟩ "aa" "bb" (by decide)

/-! ## Codec round-trip machinery (C2) -/

set_option maxRecDepth 4000

theorem parseOctet_octetChars : ∀ n : Fin 256, parseOctet (octetChars n.val) = some n.val := by
  decide

theorem octetChars_all_ok : ∀ n : Fin 256, (octetChars n.val).all fqdnOkChar = true := by
  decide

theorem dot_not_in_octet : ∀ n : Fin 256, '.' ∉ octetChars n.val := by decide

theorem fqdnOk_not_space (c : Char) (h : fqdnOkChar c = true) : isGoSpace c = false := by
  unfold fqdnOkChar at h
  simp only [Bool.and_eq_true, Bool.not_eq_true', decide_eq_true_eq] at h
  exact h.1

theorem fqdnOk_ne_hash (c : Char) (h : fqdnOkChar c = true) : c ≠ '#' := by
  unfold fqdnOkChar at h
  simp only [Bool.and_eq_true, Bool.not_eq_true', decide_eq_true_eq] at h
  exact h.2

theorem fqdnOk_ne_nl (c : Char) (h : fqdnOkChar c = true) : c ≠ '\n' := by
  intro hc
  subst hc
  exact absurd h (by decide)

theorem all_ok_mem (l : List Char) (c : Char) (hall : l.all fqdnOkChar = true)
    (hc : c ∈ l) : fqdnOkChar c = true :=
  List.all_eq_true.mp hall c hc

theorem renderChars_all_ok (ip : IP) : ip.renderChars.all fqdnOkChar = true := by
  unfold IP.renderChars
  simp only [List.all_append, List.all_cons, Bool.and_eq_true]
  exact ⟨octetChars_all_ok ip.o1, by decide,
    octetChars_all_ok ip.o2, by decide, octetChars_all_ok ip.o3, by decide,
    octetChars_all_ok ip.o4⟩

theorem renderChars_ne_nil (ip : IP) : ip.renderChars ≠ [] := by
  unfold IP.renderChars
  simp

theorem parseIPChars_render (ip : IP) : parseIPChars ip.renderChars = some ip := by
  unfold parseIPChars IP.renderChars
  rw [splitCh_sep_cons '.' _ _ (dot_not_in_octet ip.o1),
    splitCh_sep_cons '.' _ _ (dot_not_in_octet ip.o2),
    splitCh_sep_cons '.' _ _ (dot_not_in_octet ip.o3),
    splitCh_no_sep '.' _ (dot_not_in_octet ip.o4)]
  dsimp only
  rw [parseOctet_octetChars ip.o1, parseOctet_octetChars ip.o2,
    parseOctet_octetChars ip.o3, parseOctet_octetChars ip.o4]
  dsimp only
  rw [dif_pos ip.o1.isLt, dif_pos ip.o2.isLt, dif_pos ip.o3.isLt, dif_pos ip.o4.isLt]

theorem goTrim_eq_self (l : List Char)
    (h1 : ∀ c, l.head? = some c → isGoSpace c = false)
    (h2 : ∀ c, l.getLast? = some c → isGoSpace c = false) : goTrim l = l := by
  unfold goTrim
  have hd : l.dropWhile isGoSpace = l := by
    cases l with
    | nil => rfl
    | cons a t =>
      rw [List.dropWhile_cons, h1 a rfl]
      simp
  rw [hd]
  have hrev : l.reverse.dropWhile isGoSpace = l.reverse := by
    cases hr : l.reverse with
    | nil => rfl
    | cons a t =>
      have hla : l.getLast? = some a := by rw [← List.head?_reverse, hr]; rfl
      rw [List.dropWhile_cons, h2 a hla]
      simp
  rw [hrev, List.reverse_reverse]

theorem goTrim_cons_space (t : List Char)
    (h1 : ∀ c, t.head? = some c → isGoSpace c = false)
    (h2 : ∀ c, t.getLast? = some c → isGoSpace c = false) :
    goTrim (' ' :: t) = t := by
  unfold goTrim
  have hd : (' ' :: t).dropWhile isGoSpace = t := by
    rw [List.dropWhile_cons]
    rw [show isGoSpace ' ' = true from rfl]
    simp only [if_true]
    cases t with
    | nil => rfl
    | cons a t' =>
      rw [List.dropWhile_cons, h1 a rfl]
      simp
  rw [hd]
  have hrev : t.reverse.dropWhile isGoSpace = t.reverse := by
    cases hr : t.reverse with
    | nil => rfl
    | cons a t' =>
      have hla : t.getLast? = some a := by rw [← List.head?_reverse, hr]; rfl
      rw [List.dropWhile_cons, h2 a hla]
      simp
  rw [hrev, List.reverse_reverse]

theorem stripComment_eq_self (l : List Char) (h : ∀ c ∈ l, c ≠ '#') :
    stripComment l = l := by
  induction l with
  | nil => rfl
  | cons a t ih =>
    unfold stripComment
    rw [List.takeWhile_cons]
    rw [show (decide (a ≠ '#')) = true from decide_eq_true (h a (List.mem_cons_self a t))]
    simp only [if_true, List.cons.injEq, true_and]
    exact ih fun c hc => h c (List.mem_cons_of_mem a hc)

theorem joinNl_append (a b : List (List Char)) :
    joinNl (a ++ b) = joinNl a ++ joinNl b := by
  induction a with
  | nil => rfl
  | cons l ls ih => simp [joinNl, ih]

theorem readResolvLoop_append (l1 l2 : List (List Char)) (cfg : OSConfig) :
    readResolvLoop cfg (l1 ++ l2) =
      match readResolvLoop cfg l1 with
      | .error e => .error e
      | .ok cfg2 => readResolvLoop cfg2 l2 := by
  induction l1 generalizing cfg with
  | nil => rfl
  | cons ln rest ih =>
    simp only [List.cons_append, readResolvLoop]
    cases readResolvLine cfg ln with
    | error e => rfl
    | ok cfg2 => exact ih cfg2

theorem nsTok_ok : ∀ c ∈ nsTok, fqdnOkChar c = true := by decide

theorem searchTok_ok : ∀ c ∈ searchTok, fqdnOkChar c = true := by decide

theorem render_head_ok (ip : IP) :
    ∀ c, ip.renderChars.head? = some c → isGoSpace c = false := fun c hc =>
  fqdnOk_not_space c (all_ok_mem _ c (renderChars_all_ok ip) (List.mem_of_mem_head? hc))

theorem render_last_ok (ip : IP) :
    ∀ c, ip.renderChars.getLast? = some c → isGoSpace c = false := fun c hc =>
  fqdnOk_not_space c (all_ok_mem _ c (renderChars_all_ok ip) (List.mem_of_mem_getLast? hc))

theorem nsLine_getLast (ip : IP) :
    (nsLineChars ip).getLast? = ip.renderChars.getLast? := by
  unfold nsLineChars
  rw [List.getLast?_append_of_ne_nil nsTok (by simp),
    show ' ' :: ip.renderChars = [' '] ++ ip.renderChars from rfl,
    List.getLast?_append_of_ne_nil [' '] (renderChars_ne_nil ip)]

theorem goTrim_nsLine (ip : IP) : goTrim (nsLineChars ip) = nsLineChars ip := by
  apply goTrim_eq_self
  · intro c hc
    have hh : (nsLineChars ip).head? = some 'n' := rfl
    rw [hh] at hc
    cases hc
    decide
  · intro c hc
    rw [nsLine_getLast] at hc
    exact render_last_ok ip c hc

theorem nsLine_no_hash (ip : IP) : ∀ c ∈ nsLineChars ip, c ≠ '#' := by
  intro c hc
  unfold nsLineChars at hc
  rcases List.mem_append.mp hc with h | h
  · exact fqdnOk_ne_hash c (nsTok_ok c h)
  · rcases List.mem_cons.mp h with h | h
    · subst h; decide
    · exact fqdnOk_ne_hash c (all_ok_mem _ c (renderChars_all_ok ip) h)

theorem nsLine_no_nl (ip : IP) : '\n' ∉ nsLineChars ip := by
  intro hc
  unfold nsLineChars at hc
  rcases List.mem_append.mp hc with h | h
  · exact absurd (nsTok_ok _ h) (by decide)
  · rcases List.mem_cons.mp h with h | h
    · exact absurd h (by decide)
    · exact fqdnOk_ne_nl _ (all_ok_mem _ _ (renderChars_all_ok ip) h) rfl

theorem readResolvLine_ns (cfg : OSConfig) (ip : IP) :
    readResolvLine cfg (nsLineChars ip) =
      .ok ⟨cfg.nameservers ++ [ip], cfg.searchDomains⟩ := by
  unfold readResolvLine
  rw [goTrim_nsLine ip, stripComment_eq_self _ (nsLine_no_hash ip)]
  have hpre : hasPrefixL (nsLineChars ip) nsTok = true := hasPrefixL_append _ _
  rw [if_pos hpre]
  have hdrop : (nsLineChars ip).drop nsTok.length = ' ' :: ip.renderChars :=
    List.drop_left _ _
  rw [hdrop]
  dsimp only
  rw [goTrim_cons_space _ (render_head_ok ip) (render_last_ok ip)]
  rw [if_neg (by simp)]
  rw [parseIPChars_render ip]

theorem readResolvLoop_ns (servers : List IP) (acc : List IP) (sd : List FQDN) :
    readResolvLoop ⟨acc, sd⟩ (servers.map nsLineChars) = .ok ⟨acc ++ servers, sd⟩ := by
  induction servers generalizing acc with
  | nil => simp [readResolvLoop]
  | cons ip rest ih =>
    simp only [List.map_cons, readResolvLoop, readResolvLine_ns]
    rw [ih (acc ++ [ip])]
    simp

theorem wf_components (d : FQDN) (h : d.wf = true) :
    d.s.toList.getLast? = some '.' ∧ d.s.toList.dropLast ≠ [] ∧
      d.s.toList.dropLast.getLast? ≠ some '.' ∧ d.s.toList.all fqdnOkChar = true := by
  unfold FQDN.wf at h
  simp only [Bool.and_eq_true, decide_eq_true_eq] at h
  exact ⟨h.1.1.1, h.1.1.2, h.1.2, h.2⟩

theorem dropLast_all (l : List Char) (h : l.all fqdnOkChar = true) :
    l.dropLast.all fqdnOkChar = true := by
  rw [List.all_eq_true] at h ⊢
  exact fun c hc => h c ((List.dropLast_sublist l).subset hc)

theorem toFQDN_dropLast (d : FQDN) (hwf : d.wf = true) :
    toFQDN d.s.toList.dropLast = some d := by
  obtain ⟨h1, h2, h3, h4⟩ := wf_components d hwf
  have ht : d.s.toList.dropLast.all fqdnOkChar = true := dropLast_all _ h4
  have hany : ¬(d.s.toList.dropLast.any isGoSpace = true) := by
    rw [List.any_eq_true]
    rintro ⟨c, hc, hsp⟩
    rw [fqdnOk_not_space c (all_ok_mem _ c ht hc)] at hsp
    exact Bool.false_ne_true hsp
  have hne : d.s.toList ≠ [] := by
    intro hl
    apply h2
    rw [hl]
    rfl
  have hlast : d.s.toList.getLast hne = '.' := by
    have := List.getLast?_eq_getLast d.s.toList hne
    rw [h1] at this
    exact (Option.some.injEq _ _ ▸ this).symm
  unfold toFQDN
  rw [if_neg h2, if_neg hany, if_neg h3]
  have hrecon : d.s.toList.dropLast ++ ['.'] = d.s.toList := by
    conv_lhs => rw [← hlast]
    exact List.dropLast_append_getLast hne
  rw [hrecon]
  rfl

theorem searchLine_getLast (t : List Char) (h : t ≠ []) :
    (searchLineChars t).getLast? = t.getLast? := by
  unfold searchLineChars
  rw [List.getLast?_append_of_ne_nil searchTok (by simp),
    show ' ' :: t = [' '] ++ t from rfl,
    List.getLast?_append_of_ne_nil [' '] h]

theorem readResolvLine_search (cfg : OSConfig) (d : FQDN) (hwf : d.wf = true) :
    readResolvLine cfg (searchLineChars d.s.toList.dropLast) =
      .ok ⟨cfg.nameservers, cfg.searchDomains ++ [d]⟩ := by
  obtain ⟨h1, h2, h3, h4⟩ := wf_components d hwf
  have ht : d.s.toList.dropLast.all fqdnOkChar = true := dropLast_all _ h4
  have hthead : ∀ c, d.s.toList.dropLast.head? = some c → isGoSpace c = false :=
    fun c hc => fqdnOk_not_space c (all_ok_mem _ c ht (List.mem_of_mem_head? hc))
  have htlast : ∀ c, d.s.toList.dropLast.getLast? = some c → isGoSpace c = false :=
    fun c hc => fqdnOk_not_space c (all_ok_mem _ c ht (List.mem_of_mem_getLast? hc))
  unfold readResolvLine
  rw [goTrim_eq_self _ ?hh ?hl]
  case hh =>
    intro c hc
    have : (searchLineChars d.s.toList.dropLast).head? = some 's' := rfl
    rw [this] at hc
    cases hc
    decide
  case hl =>
    intro c hc
    rw [searchLine_getLast _ h2] at hc
    exact htlast c hc
  rw [stripComment_eq_self _ ?hnh]
  case hnh =>
    intro c hc
    unfold searchLineChars at hc
    rcases List.mem_append.mp hc with h | h
    · exact fqdnOk_ne_hash c (searchTok_ok c h)
    · rcases List.mem_cons.mp h with h | h
      · subst h; decide
      · exact fqdnOk_ne_hash c (all_ok_mem _ c ht h)
  have hns : hasPrefixL (searchLineChars d.s.toList.dropLast) nsTok = false := rfl
  rw [if_neg (by rw [hns]; exact Bool.false_ne_true)]
  have hpre : hasPrefixL (searchLineChars d.s.toList.dropLast) searchTok = true :=
    hasPrefixL_append _ _
  rw [if_pos hpre]
  have hdrop : (searchLineChars d.s.toList.dropLast).drop searchTok.length =
      ' ' :: d.s.toList.dropLast := List.drop_left _ _
  rw [hdrop]
  dsimp only
  rw [goTrim_cons_space _ hthead htlast]
  rw [if_neg (by simp)]
  rw [toFQDN_dropLast d hwf]

theorem searchLine_no_nl (d : FQDN) (hwf : d.wf = true) :
    '\n' ∉ searchLineChars d.s.toList.dropLast := by
  obtain ⟨_, _, _, h4⟩ := wf_components d hwf
  have ht : d.s.toList.dropLast.all fqdnOkChar = true := dropLast_all _ h4
  intro hc
  unfold searchLineChars at hc
  rcases List.mem_append.mp hc with h | h
  · exact absurd (searchTok_ok _ h) (by decide)
  · rcases List.mem_cons.mp h with h | h
    · exact absurd h (by decide)
    · exact fqdnOk_ne_nl _ (all_ok_mem _ _ ht h) rfl

theorem toList_append (a b : String) : (a ++ b).toList = a.toList ++ b.toList :=
  String.data_append a b

theorem nsLinesStr_toList (servers : List IP) :
    (nsLinesStr servers).toList = joinNl (servers.map nsLineChars) := by
  induction servers with
  | nil => rfl
  | cons ip rest ih =>
    unfold nsLinesStr
    rw [toList_append, toList_append, toList_append, ih]
    rw [show ("nameserver " : String).toList = nsTok ++ [' '] from by decide]
    rw [show ("\n" : String).toList = ['\n'] from by decide]
    rw [show (IP.render ip).toList = ip.renderChars from rfl]
    simp [joinNl, nsLineChars, List.append_assoc]

theorem resolvHeader_toList :
    resolvHeader.toList =
      joinNl ["# resolv.conf(5) file generated by tailscale".toList,
        "# DO NOT EDIT THIS FILE BY HAND -- CHANGES WILL BE OVERWRITTEN".toList, []] := by
  decide

theorem writeResolvConf_toList_nil (servers : List IP) :
    (writeResolvConf servers []).toList =
      joinNl ("# resolv.conf(5) file generated by tailscale".toList ::
        "# DO NOT EDIT THIS FILE BY HAND -- CHANGES WILL BE OVERWRITTEN".toList ::
        [] :: servers.map nsLineChars) := by
  unfold writeResolvConf
  rw [if_pos (by decide : ([] : List FQDN).isEmpty = true)]
  rw [toList_append, toList_append, resolvHeader_toList, nsLinesStr_toList]
  rw [show ("" : String).toList = [] from rfl, List.append_nil, ← joinNl_append]
  rfl

theorem writeResolvConf_toList_one (servers : List IP) (d : FQDN) (hwf : d.wf = true) :
    (writeResolvConf servers [d]).toList =
      joinNl ("# resolv.conf(5) file generated by tailscale".toList ::
        "# DO NOT EDIT THIS FILE BY HAND -- CHANGES WILL BE OVERWRITTEN".toList ::
        [] :: (servers.map nsLineChars ++ [searchLineChars d.s.toList.dropLast])) := by
  obtain ⟨h1, _, _, _⟩ := wf_components d hwf
  have hwtd : d.withoutTrailingDot = String.mk d.s.toList.dropLast := by
    unfold FQDN.withoutTrailingDot
    rw [if_pos h1]
  unfold writeResolvConf searchItems
  rw [if_neg (by simp : ¬(([d] : List FQDN).isEmpty = true))]
  rw [hwtd]
  rw [toList_append, toList_append, toList_append, toList_append, toList_append,
    toList_append]
  rw [resolvHeader_toList, nsLinesStr_toList]
  rw [show ("search" : String).toList = searchTok from rfl]
  rw [show (" " : String).toList = [' '] from rfl]
  rw [show ("\n" : String).toList = ['\n'] from rfl]
  rw [show (String.mk d.s.toList.dropLast).toList = d.s.toList.dropLast from rfl]
  rw [show (searchItems [] : String).toList = [] from rfl]
  simp [joinNl_append, joinNl, searchLineChars, List.append_assoc]

theorem readResolvLoop_headers (cfg : OSConfig) (rest : List (List Char)) :
    readResolvLoop cfg ("# resolv.conf(5) file generated by tailscale".toList ::
        "# DO NOT EDIT THIS FILE BY HAND -- CHANGES WILL BE OVERWRITTEN".toList ::
        [] :: rest) = readResolvLoop cfg rest := rfl

/-- C2 (amended): for every configuration with a non-empty nameserver
sequence and at most one well-formed search domain, decoding the encoded
form succeeds and returns the configuration unchanged.  (With two or more
search domains the single space-separated `search` line fails to decode; see
the counterexample.) -/
theorem readResolv_writeResolvConf (cfg : OSConfig) (hns : cfg.nameservers ≠ [])
    (hds : ∀ d ∈ cfg.searchDomains, d.wf = true)
    (hlen : cfg.searchDomains.length ≤ 1) :
    readResolv (writeResolvConf cfg.nameservers cfg.searchDomains) = .ok cfg := by
  obtain ⟨ns, ds⟩ := cfg
  dsimp only at hds hlen ⊢
  unfold readResolv
  cases ds with
  | nil =>
    rw [writeResolvConf_toList_nil ns]
    rw [goLines_joinNl _ ?hnl]
    case hnl =>
      intro l hl
      rcases List.mem_cons.mp hl with rfl | hl
      · decide
      · rcases List.mem_cons.mp hl with rfl | hl
        · decide
        · rcases List.mem_cons.mp hl with rfl | hl
          · simp
          · obtain ⟨ip, _, rfl⟩ := List.mem_map.mp hl
            exact nsLine_no_nl ip
    rw [readResolvLoop_headers]
    rw [readResolvLoop_ns ns [] []]
    simp
  | cons d ds' =>
    cases ds' with
    | cons d2 ds'' =>
      exfalso
      simp only [List.length_cons] at hlen
      omega
    | nil =>
      have hwf : d.wf = true := hds d (List.mem_cons_self d [])
      rw [writeResolvConf_toList_one ns d hwf]
      rw [goLines_joinNl _ ?hnl]
      case hnl =>
        intro l hl
        rcases List.mem_cons.mp hl with rfl | hl
        · decide
        · rcases List.mem_cons.mp hl with rfl | hl
          · decide
          · rcases List.mem_cons.mp hl with rfl | hl
            · simp
            · rcases List.mem_append.mp hl with hl | hl
              · obtain ⟨ip, _, rfl⟩ := List.mem_map.mp hl
                exact nsLine_no_nl ip
              · rcases List.mem_cons.mp hl with rfl | hl
                · exact searchLine_no_nl d hwf
                · simp at hl
      rw [readResolvLoop_headers]
      rw [readResolvLoop_append]
      rw [readResolvLoop_ns ns [] []]
      dsimp only
      show readResolvLoop ⟨[] ++ ns, []⟩ [searchLineChars d.s.toList.dropLast] = _
      unfold readResolvLoop
      rw [readResolvLine_search ⟨[] ++ ns, []⟩ d hwf]
      simp [readResolvLoop]

theorem readResolv_writeResolvConf_witness :
    readResolv (writeResolvConf [⟨⟨100, by decide⟩, ⟨100, by decide⟩, ⟨100, by decide⟩,
        ⟨100, by decide⟩⟩] [⟨"corp.example."⟩]) =
      .ok ⟨[⟨⟨100, by decide⟩, ⟨100, by decide⟩, ⟨100, by decide⟩, ⟨100, by decide⟩⟩],
        [⟨"corp.example."⟩]⟩ :=
  readResolv_writeResolvConf
    ⟨[⟨⟨100, by decide⟩, ⟨100, by decide⟩, ⟨100, by decide⟩, ⟨100, by decide⟩⟩],
      [⟨"corp.example."⟩]⟩
    (by simp) (by decide) (by decide)

/-- C2 counterexample: a configuration with one nameserver and TWO search
domains (each whitespace-free and well-formed) does not round-trip: the
encoder emits one space-separated `search` line, and the decoder fails on
its two-token remainder instead of returning the configuration. -/
theorem readResolv_two_domains_fails :
    readResolv (writeResolvConf [⟨⟨1, by decide⟩, ⟨1, by decide⟩, ⟨1, by decide⟩,
        ⟨1, by decide⟩⟩] [⟨"a."⟩, ⟨"b."⟩]) = .error .fault ∧
      FQDN.wf ⟨"a."⟩ = true ∧ FQDN.wf ⟨"b."⟩ = true := by
  refine ⟨rfl, by decide, by decide⟩

end DnsDirect
